import Mathlib

/-!
Verification of the giveaway pipeline
(cleanup.py, pick_winner.py, stats.py, highentryrep.py).

The pipeline is embedded shallowly:
* a cleaned CSV row (after `advanced_clean_instagram_csv` relabels the
  columns) becomes a `CommentRecord`; a missing cell (pandas NaN) is `none`;
* `pick_winner.pick_giveaway_winners` becomes the chain
  `parsedLikes` (digit extraction from `action_type`), `validEntry`
  (the three-mentions filter), `userTotalWeights` (groupby-sum of weights),
  `clampK` and `sample` (the weighted draw without replacement);
* `cleanup.advanced_clean_instagram_csv` rows are `RawRow`s and its
  duplicate removal (`df.duplicated(keep=first)`) is `dedupFirst`;
* the winner/non-winner split of `stats.analyze_giveaway_results` becomes
  `validWinners` / `nonWinners`.

The random draw `Series.sample(n, weights, replace=False)` delegates to
numpy weighted choice without replacement, whose distribution is that of
successive weighted sampling: one candidate at a time, chosen with
probability proportional to its weight among the candidates still in the
pool, then removed.  The draw is modelled with an abstract generator
`g : Nat → Nat`; at step `s` over a pool of total weight `W` the residue
`g s % W` is uniform on `0, ..., W - 1` when `g s` is uniform, and
`selectIdx` maps it to the candidate whose cumulative-weight slot
contains it.
-/

namespace Giveaway

/-- A cleaned CSV row, with the columns `pick_giveaway_winners` reads.
A `none` field is a cell pandas loaded as NaN. -/
structure CommentRecord where
  profile_url : Option String
  username : String
  comment_text : Option String
  time_elapsed : Option String
  mentioned_user_1_username : Option String
  mentioned_user_2_username : Option String
  mentioned_user_3_username : Option String
  action_type : Option String
deriving DecidableEq

/-- Digit value of a decimal digit character. -/
def digitVal (c : Char) : Nat := c.toNat - 48

/-- Value of a list of decimal digit characters, most significant first. -/
def natOfDigits (cs : List Char) : Nat :=
  cs.foldl (fun n c => 10 * n + digitVal c) 0

/-- The first maximal run of decimal digits in a character list: the
regex search the code performs elementwise. -/
def firstDigitRun : List Char → Option (List Char)
  | [] => none
  | c :: cs => if c.isDigit then some (c :: cs.takeWhile Char.isDigit)
               else firstDigitRun cs

/-- Likes parsed from the `action_type` cell:
`df[action_type].str.extract((d+)).fillna(0)` — the first digit run,
or 0 when the cell is NaN or holds no digits (and 0 when the whole
column is absent). -/
def parsedLikes : Option String → Nat
  | none => 0
  | some s =>
    match firstDigitRun s.data with
    | none => 0
    | some run => natOfDigits run

/-- `comment_likes` of a row. -/
def commentLikes (r : CommentRecord) : Nat := parsedLikes r.action_type

/-- The validity filter of `pick_giveaway_winners`:
`df[mentioned_user_1_username].notna() & ... & df[mentioned_user_3_username].notna()`.
pandas `notna` only checks for a missing value; it does not look at the
string content. -/
def validEntry (r : CommentRecord) : Bool :=
  r.mentioned_user_1_username.isSome &&
  r.mentioned_user_2_username.isSome &&
  r.mentioned_user_3_username.isSome

/-- Per-entry weight: `valid_entries[weight] = valid_entries[comment_likes] + 1`. -/
def entryWeight (r : CommentRecord) : Nat := commentLikes r + 1

/-- Add weight `w` for user `u` into a (username, total) association list,
summing into an existing row or appending a fresh one. -/
def addWeight : List (String × Nat) → String → Nat → List (String × Nat)
  | [], u, w => [(u, w)]
  | (v, x) :: rest, u, w =>
    if v = u then (v, x + w) :: rest else (v, x) :: addWeight rest u w

/-- `valid_entries.groupby(username)[weight].sum()`: the per-participant
total weight, one row per distinct username of a valid entry. -/
def userTotalWeights (l : List CommentRecord) : List (String × Nat) :=
  (l.filter validEntry).foldl (fun acc r => addWeight acc r.username (entryWeight r)) []

/-- Total weight of a pool. -/
def totalW (pool : List (String × Nat)) : Nat := (pool.map Prod.snd).sum

/-- Index of the candidate whose cumulative-weight slot contains residue
`r`: candidate `i` owns the residues `w 0 + ... + w (i-1) ≤ r < w 0 + ... + w i`. -/
def selectIdx : List Nat → Nat → Nat
  | [], _ => 0
  | w :: ws, r => if r < w then 0 else selectIdx ws (r - w) + 1

/-- One weighted draw: the chosen candidate and the pool with that
candidate removed. -/
def drawOne : List (String × Nat) → Nat → Option (String × List (String × Nat))
  | [], _ => none
  | (u, w) :: rest, r =>
    if r < w then some (u, rest)
    else (drawOne rest (r - w)).map (fun p => (p.1, (u, w) :: p.2))

/-- `k` successive weighted draws without replacement, consuming
generator values `g s, g (s+1), ...`; the draw of
`Series.sample(n, weights, replace=False)`. -/
def sampleAux (g : Nat → Nat) : Nat → Nat → List (String × Nat) → List String
  | 0, _, _ => []
  | Nat.succ k, s, pool =>
    if totalW pool = 0 then []
    else
      match drawOne pool (g s % totalW pool) with
      | none => []
      | some p => p.1 :: sampleAux g k (s + 1) p.2

/-- The winner draw over a pool, `n` winners requested. -/
def sample (pool : List (String × Nat)) (n : Nat) (g : Nat → Nat) : List String :=
  sampleAux g n 0 pool

/-- `num_winners_to_pick = 10`. -/
def numWinnersToPick : Nat := 10

/-- The clamp of section 5 of `pick_giveaway_winners`: when fewer
participants than requested, pick them all and warn (the Bool is the
printed warning). -/
def clampK (m : Nat) : Nat × Bool :=
  if m < numWinnersToPick then (m, true) else (numWinnersToPick, false)

/-- The winner selection of `pick_giveaway_winners`: aggregate, clamp,
draw.  Returns the winner list in draw order and the clamp signal. -/
def pickGiveawayWinners (l : List CommentRecord) (g : Nat → Nat) :
    List String × Bool :=
  let pool := userTotalWeights l
  let k := clampK pool.length
  (sample pool k.1 g, k.2)

/-- A raw CSV row of `advanced_clean_instagram_csv`: an ordered tuple of
cells, a cell being text or NaN (`none`).  Rows are compared cell by
cell, exactly — the comparison `df.duplicated` performs. -/
def RawRow : Type := List (Option String)

instance : DecidableEq RawRow := by
  unfold RawRow
  infer_instance

/-- Remove every row equal to one already kept:
`df[~df.duplicated(keep=first)]`, with `seen` the rows kept so far. -/
def removeDups {α : Type} [DecidableEq α] (seen : List α) : List α → List α
  | [] => []
  | x :: xs =>
    if x ∈ seen then removeDups seen xs else x :: removeDups (x :: seen) xs

/-- The duplicate removal of `advanced_clean_instagram_csv`: keep the
first instance of each completely identical row. -/
def dedupFirst {α : Type} [DecidableEq α] (l : List α) : List α :=
  removeDups [] l

/-- Modelled from the spec: a record is removed iff it is exactly equal
to an earlier record (`pre` holds all earlier records, kept or not); the
first occurrence survives and order is preserved. -/
def dedupSpecAux {α : Type} [DecidableEq α] (pre : List α) : List α → List α
  | [] => []
  | x :: xs =>
    if x ∈ pre then dedupSpecAux (pre ++ [x]) xs
    else x :: dedupSpecAux (pre ++ [x]) xs

/-- Modelled from the spec: duplicate removal stated over the list of
earlier records. -/
def dedupSpec {α : Type} [DecidableEq α] (l : List α) : List α :=
  dedupSpecAux [] l

/-- The 14 replacement labels of `advanced_clean_instagram_csv`. -/
def newColumnNames : List String :=
  ["profile_url", "profile_picture_url", "username", "post_comment_url",
   "time_elapsed", "comment_text", "mentioned_user_1_username",
   "mentioned_user_1_url", "mentioned_user_2_username", "mentioned_user_2_url",
   "mentioned_user_3_username", "mentioned_user_3_url", "action_type",
   "extra_empty_column"]

/-- Assigning a label list to a frame: pandas accepts it only when the
label count equals the column count, and otherwise raises a
length-mismatch error (the semantics of the `df.columns` setter). -/
def setColumns (ncols : Nat) (names : List String) : Except String (List String) :=
  if names.length = ncols then Except.ok names
  else Except.error "Length mismatch"

/-- The relabeling step of `advanced_clean_instagram_csv` on a frame
with `ncols` columns: all 14 labels when the count matches, otherwise a
warning (the Bool) and the assignment of the truncated label list. -/
def renameColumns (ncols : Nat) : Except String (List String × Bool) :=
  if ncols = newColumnNames.length then Except.ok (newColumnNames, false)
  else (setColumns ncols (newColumnNames.take ncols)).map (fun ns => (ns, true))

/-- The winner profile lookup shared by `pick_giveaway_winners` and
`analyze_giveaway_results`:
`df[df[username].isin(winners)].drop_duplicates(subset=[username]).set_index(username)[profile_url]`
read at `u` — the profile cell of the first row of the whole frame whose
username is `u`, among rows of listed winners. -/
def winnerProfiles (df : List CommentRecord) (winners : List String)
    (u : String) : Option (Option String) :=
  ((df.filter (fun r => decide (r.username ∈ winners))).find?
      (fun r => r.username == u)).map CommentRecord.profile_url

/-- Modelled from the spec: the profile reference of a participant is the
one carried by that participant's first valid entry in original order. -/
def specProfileRef (df : List CommentRecord) (u : String) :
    Option (Option String) :=
  ((df.filter validEntry).find? (fun r => r.username == u)).map
    CommentRecord.profile_url

/-- `all_participants = user_total_weights.index.tolist()` of
`analyze_giveaway_results`: the participants with a valid entry. -/
def allParticipants (l : List CommentRecord) : List String :=
  (userTotalWeights l).map Prod.fst

/-- `valid_winners = [user for user in winner_usernames if user in all_participants]`. -/
def validWinners (l : List CommentRecord) (ws : List String) : List String :=
  ws.filter (fun u => decide (u ∈ allParticipants l))

/-- `non_winners = [user for user in all_participants if user not in winner_usernames]`. -/
def nonWinners (l : List CommentRecord) (ws : List String) : List String :=
  (allParticipants l).filter (fun u => decide (u ∉ ws))

/-- Modelled from the spec: acceptance as the specification words it —
all three mention fields non-empty strings (a blank string is rejected). -/
def specValid (r : CommentRecord) : Bool :=
  (match r.mentioned_user_1_username with
   | none => false
   | some s => !(s == "")) &&
  (match r.mentioned_user_2_username with
   | none => false
   | some s => !(s == "")) &&
  (match r.mentioned_user_3_username with
   | none => false
   | some s => !(s == ""))

/-- Fixture: a valid entry of u1 with 3 likes (weight 4). -/
def recU1 : CommentRecord :=
  { profile_url := some "p1", username := "u1", comment_text := none,
    time_elapsed := none, mentioned_user_1_username := some "a",
    mentioned_user_2_username := some "b", mentioned_user_3_username := some "c",
    action_type := some "3 likes" }

/-- Fixture: a valid entry of u2 with 1 like (weight 2). -/
def recU2 : CommentRecord :=
  { profile_url := some "p2", username := "u2", comment_text := none,
    time_elapsed := none, mentioned_user_1_username := some "a",
    mentioned_user_2_username := some "b", mentioned_user_3_username := some "c",
    action_type := some "1 like" }

/-- Fixture: an entry whose first mention cell holds a blank string. -/
def recBlankMention : CommentRecord :=
  { profile_url := none, username := "u3", comment_text := none,
    time_elapsed := none, mentioned_user_1_username := some "",
    mentioned_user_2_username := some "b", mentioned_user_3_username := some "c",
    action_type := none }

/-- Fixture: an invalid first record of u carrying profile P1. -/
def recFirstNoMentions : CommentRecord :=
  { profile_url := some "P1", username := "u", comment_text := none,
    time_elapsed := none, mentioned_user_1_username := none,
    mentioned_user_2_username := none, mentioned_user_3_username := none,
    action_type := none }

/-- Fixture: a later valid record of u carrying profile P2. -/
def recLaterValid : CommentRecord :=
  { profile_url := some "P2", username := "u", comment_text := none,
    time_elapsed := none, mentioned_user_1_username := some "a",
    mentioned_user_2_username := some "b", mentioned_user_3_username := some "c",
    action_type := none }

theorem countP_range_selectIdx (ws : List Nat) :
    ∀ i : Nat,
      (List.range ws.sum).countP (fun r => selectIdx ws r == i) = ws.getD i 0 := by
  induction ws with
  | nil => intro i; simp
  | cons w ws ih =>
    intro i
    have hsum : (w :: ws).sum = w + ws.sum := by simp
    rw [hsum, List.range_add, List.countP_append, List.countP_map]
    have h1 : (List.range w).countP (fun r => selectIdx (w :: ws) r == i)
        = (List.range w).countP (fun _ => 0 == i) := by
      apply List.countP_congr
      intro a ha
      have haw : a < w := List.mem_range.mp ha
      simp [selectIdx, haw]
    have h2 : (List.range ws.sum).countP
          ((fun r => selectIdx (w :: ws) r == i) ∘ (w + ·))
        = (List.range ws.sum).countP (fun r => selectIdx ws r + 1 == i) := by
      apply List.countP_congr
      intro a _
      have hnlt : ¬ (w + a < w) := by omega
      simp [Function.comp, selectIdx, hnlt, Nat.add_sub_cancel_left]
    rw [h1, h2]
    cases i with
    | zero =>
      have hz : (List.range ws.sum).countP (fun r => selectIdx ws r + 1 == 0) = 0 := by
        simp
      rw [hz]
      simp
    | succ j =>
      have hz : (List.range w).countP (fun _ => 0 == j + 1) = 0 := by simp
      have hs : (List.range ws.sum).countP (fun r => selectIdx ws r + 1 == j + 1)
          = (List.range ws.sum).countP (fun r => selectIdx ws r == j) := by
        apply List.countP_congr
        intro a _
        simp
      rw [hz, hs, ih j]
      simp

theorem selectIdx_lt :
    ∀ (ws : List Nat) (r : Nat), r < ws.sum → selectIdx ws r < ws.length := by
  intro ws
  induction ws with
  | nil => intro r h; simp at h
  | cons w ws ih =>
    intro r h
    simp only [List.sum_cons] at h
    by_cases hr : r < w
    · simp [selectIdx, hr]
    · have hlt : r - w < ws.sum := by omega
      simp only [selectIdx, hr, if_false]
      exact Nat.succ_lt_succ (ih _ hlt)

theorem drawOne_eq (pool : List (String × Nat)) :
    ∀ (r : Nat), r < totalW pool →
      drawOne pool r =
        some ((pool.getD (selectIdx (pool.map Prod.snd) r) ("", 0)).1,
          pool.eraseIdx (selectIdx (pool.map Prod.snd) r)) := by
  induction pool with
  | nil => intro r h; simp [totalW] at h
  | cons p rest ih =>
    intro r h
    obtain ⟨u, w⟩ := p
    by_cases hr : r < w
    · simp [drawOne, selectIdx, hr, List.eraseIdx]
    · have h2 : r - w < totalW rest := by
        simp only [totalW, List.map_cons, List.sum_cons] at h
        simp only [totalW]
        omega
      simp only [drawOne, hr, if_false, ih _ h2, Option.map_some]
      simp [selectIdx, hr, List.eraseIdx]

theorem map_eraseIdx_comm {α β : Type} (f : α → β) :
    ∀ (l : List α) (i : Nat), (l.eraseIdx i).map f = (l.map f).eraseIdx i := by
  intro l
  induction l with
  | nil => intro i; simp
  | cons a t ih =>
    intro i
    cases i with
    | zero => simp [List.eraseIdx]
    | succ j => simp [List.eraseIdx, ih]

theorem fst_getD (pool : List (String × Nat)) (i : Nat) (h : i < pool.length) :
    (pool.getD i ("", 0)).1 = (pool.map Prod.fst).getD i "" := by
  rw [List.getD_eq_getElem _ _ h, List.getD_eq_getElem _ _ (by simpa using h)]
  simp

theorem getD_not_mem_eraseIdx {α : Type} (d : α) :
    ∀ (l : List α) (i : Nat), l.Nodup → i < l.length → l.getD i d ∉ l.eraseIdx i := by
  intro l
  induction l with
  | nil => intro i _ h; simp at h
  | cons a t ih =>
    intro i hnd hi
    cases i with
    | zero =>
      simp only [List.getD_cons_zero, List.eraseIdx]
      exact (List.nodup_cons.mp hnd).1
    | succ j =>
      simp only [List.getD_cons_succ, List.eraseIdx]
      intro hmem
      rcases List.mem_cons.mp hmem with h1 | h2
      · have hj : j < t.length := by simpa using hi
        have hm : t.getD j d ∈ t := by
          rw [List.getD_eq_getElem t d hj]
          exact List.getElem_mem hj
        exact (List.nodup_cons.mp hnd).1 (h1 ▸ hm)
      · exact ih j (List.nodup_cons.mp hnd).2 (by simpa using hi) h2

theorem getD_cons_eraseIdx_perm {α : Type} (d : α) :
    ∀ (l : List α) (i : Nat), i < l.length →
      List.Perm l (l.getD i d :: l.eraseIdx i) := by
  intro l
  induction l with
  | nil => intro i h; simp at h
  | cons a t ih =>
    intro i hi
    cases i with
    | zero => simp [List.eraseIdx]
    | succ j =>
      have hj : j < t.length := by simpa using hi
      simp only [List.getD_cons_succ, List.eraseIdx]
      exact List.Perm.trans (List.Perm.cons a (ih j hj))
        (List.Perm.swap (t.getD j d) a (t.eraseIdx j))

theorem mem_sampleAux (g : Nat → Nat) :
    ∀ (k s : Nat) (pool : List (String × Nat)) (u : String),
      u ∈ sampleAux g k s pool → u ∈ pool.map Prod.fst := by
  intro k
  induction k with
  | zero => intro s pool u h; simp [sampleAux] at h
  | succ k ih =>
    intro s pool u h
    simp only [sampleAux] at h
    by_cases hW : totalW pool = 0
    · simp [hW] at h
    · rw [if_neg hW, drawOne_eq _ _ (Nat.mod_lt _ (Nat.pos_of_ne_zero hW))] at h
      have hl : selectIdx (pool.map Prod.snd) (g s % totalW pool) < pool.length := by
        have := selectIdx_lt (pool.map Prod.snd) (g s % totalW pool)
          (by simpa [totalW] using Nat.mod_lt (g s) (Nat.pos_of_ne_zero hW))
        simpa using this
      rcases List.mem_cons.mp h with h1 | h2
      · rw [h1, List.getD_eq_getElem _ _ hl]
        exact List.mem_map_of_mem Prod.fst (List.getElem_mem hl)
      · have hmem := ih (s + 1) _ u h2
        exact ((List.eraseIdx_sublist pool _).map Prod.fst).subset hmem

theorem sampleAux_nodup (g : Nat → Nat) :
    ∀ (k s : Nat) (pool : List (String × Nat)),
      (pool.map Prod.fst).Nodup → (sampleAux g k s pool).Nodup := by
  intro k
  induction k with
  | zero => intro s pool _; simp [sampleAux]
  | succ k ih =>
    intro s pool hnd
    simp only [sampleAux]
    by_cases hW : totalW pool = 0
    · simp [hW]
    · rw [if_neg hW, drawOne_eq _ _ (Nat.mod_lt _ (Nat.pos_of_ne_zero hW))]
      dsimp only
      have hl : selectIdx (pool.map Prod.snd) (g s % totalW pool) < pool.length := by
        have := selectIdx_lt (pool.map Prod.snd) (g s % totalW pool)
          (by simpa [totalW] using Nat.mod_lt (g s) (Nat.pos_of_ne_zero hW))
        simpa using this
      refine List.nodup_cons.mpr ⟨?_, ?_⟩
      · intro hmem
        have h1 := mem_sampleAux g k (s + 1) _ _ hmem
        rw [map_eraseIdx_comm, fst_getD pool _ hl] at h1
        exact getD_not_mem_eraseIdx "" (pool.map Prod.fst) _ hnd (by simpa using hl) h1
      · refine ih (s + 1) _ ?_
        rw [map_eraseIdx_comm]
        exact hnd.sublist (List.eraseIdx_sublist _ _)

theorem sampleAux_perm (g : Nat → Nat) :
    ∀ (k s : Nat) (pool : List (String × Nat)),
      (∀ p ∈ pool, 0 < p.2) → pool.length ≤ k →
      List.Perm (sampleAux g k s pool) (pool.map Prod.fst) := by
  intro k
  induction k with
  | zero =>
    intro s pool _ hlen
    have hnil : pool = [] := List.length_eq_zero.mp (Nat.le_zero.mp hlen)
    subst hnil
    simp [sampleAux]
  | succ k ih =>
    intro s pool hpos hlen
    simp only [sampleAux]
    by_cases hW : totalW pool = 0
    · cases pool with
      | nil => simp [hW]
      | cons p rest =>
        exfalso
        have hp := hpos p (List.mem_cons_self p rest)
        simp only [totalW, List.map_cons, List.sum_cons] at hW
        omega
    · rw [if_neg hW, drawOne_eq _ _ (Nat.mod_lt _ (Nat.pos_of_ne_zero hW))]
      dsimp only
      have hl : selectIdx (pool.map Prod.snd) (g s % totalW pool) < pool.length := by
        have := selectIdx_lt (pool.map Prod.snd) (g s % totalW pool)
          (by simpa [totalW] using Nat.mod_lt (g s) (Nat.pos_of_ne_zero hW))
        simpa using this
      have hrecpos : ∀ p ∈ pool.eraseIdx
          (selectIdx (pool.map Prod.snd) (g s % totalW pool)), 0 < p.2 := fun p hp =>
        hpos p ((List.eraseIdx_sublist pool _).subset hp)
      have hreclen : (pool.eraseIdx (selectIdx (pool.map Prod.snd)
          (g s % totalW pool))).length ≤ k := by
        rw [List.length_eraseIdx_of_lt hl]
        omega
      refine List.Perm.trans
        (List.Perm.cons _ (ih (s + 1) _ hrecpos hreclen)) ?_
      rw [map_eraseIdx_comm, fst_getD pool _ hl]
      exact (getD_cons_eraseIdx_perm "" (pool.map Prod.fst) _ (by simpa using hl)).symm

theorem mem_addWeight_keys (u : String) (w : Nat) (v : String) :
    ∀ acc : List (String × Nat),
      (v ∈ (addWeight acc u w).map Prod.fst ↔ v ∈ acc.map Prod.fst ∨ v = u) := by
  intro acc
  induction acc with
  | nil => simp [addWeight]
  | cons p rest ih =>
    obtain ⟨a, x⟩ := p
    by_cases hau : a = u
    · subst hau
      rw [addWeight, if_pos rfl]
      simp only [List.map_cons, List.mem_cons]
      tauto
    · rw [addWeight, if_neg hau]
      simp only [List.map_cons, List.mem_cons, ih]
      tauto

theorem addWeight_pos (u : String) (w : Nat) (hw : 0 < w) :
    ∀ acc : List (String × Nat), (∀ p ∈ acc, 0 < p.2) →
      ∀ p ∈ addWeight acc u w, 0 < p.2 := by
  intro acc
  induction acc with
  | nil =>
    intro _ p hp
    simp only [addWeight, List.mem_singleton] at hp
    subst hp
    exact hw
  | cons q rest ih =>
    intro hacc p hp
    obtain ⟨a, x⟩ := q
    by_cases hau : a = u
    · rw [addWeight, if_pos hau] at hp
      rcases List.mem_cons.mp hp with h1 | h2
      · subst h1
        have := hacc (a, x) (List.mem_cons_self _ _)
        simp only at this ⊢
        omega
      · exact hacc p (List.mem_cons_of_mem _ h2)
    · rw [addWeight, if_neg hau] at hp
      rcases List.mem_cons.mp hp with h1 | h2
      · subst h1
        exact hacc (a, x) (List.mem_cons_self _ _)
      · exact ih (fun q hq => hacc q (List.mem_cons_of_mem _ hq)) p h2

theorem addWeight_keys_nodup (u : String) (w : Nat) :
    ∀ acc : List (String × Nat), (acc.map Prod.fst).Nodup →
      ((addWeight acc u w).map Prod.fst).Nodup := by
  intro acc
  induction acc with
  | nil => intro _; simp [addWeight]
  | cons p rest ih =>
    intro hnd
    obtain ⟨a, x⟩ := p
    simp only [List.map_cons, List.nodup_cons] at hnd
    by_cases hau : a = u
    · rw [addWeight, if_pos hau]
      simp only [List.map_cons, List.nodup_cons]
      exact hnd
    · rw [addWeight, if_neg hau]
      simp only [List.map_cons, List.nodup_cons]
      refine ⟨?_, ih hnd.2⟩
      intro hmem
      rcases (mem_addWeight_keys u w a rest).mp hmem with h1 | h2
      · exact hnd.1 h1
      · exact hau h2

theorem foldl_addWeight_pos :
    ∀ (entries : List CommentRecord) (acc : List (String × Nat)),
      (∀ p ∈ acc, 0 < p.2) →
      ∀ p ∈ entries.foldl (fun acc r => addWeight acc r.username (entryWeight r)) acc,
        0 < p.2 := by
  intro entries
  induction entries with
  | nil => intro acc hacc p hp; exact hacc p hp
  | cons r rest ih =>
    intro acc hacc p hp
    simp only [List.foldl_cons] at hp
    exact ih _ (addWeight_pos r.username (entryWeight r) (Nat.succ_pos _) acc hacc) p hp

theorem foldl_addWeight_nodup :
    ∀ (entries : List CommentRecord) (acc : List (String × Nat)),
      (acc.map Prod.fst).Nodup →
      ((entries.foldl (fun acc r => addWeight acc r.username (entryWeight r)) acc).map
          Prod.fst).Nodup := by
  intro entries
  induction entries with
  | nil => intro acc hacc; exact hacc
  | cons r rest ih =>
    intro acc hacc
    simp only [List.foldl_cons]
    exact ih _ (addWeight_keys_nodup r.username (entryWeight r) acc hacc)

theorem foldl_addWeight_keys (v : String) :
    ∀ (entries : List CommentRecord) (acc : List (String × Nat)),
      (v ∈ (entries.foldl (fun acc r => addWeight acc r.username (entryWeight r)) acc).map
          Prod.fst ↔
        v ∈ acc.map Prod.fst ∨ ∃ r ∈ entries, r.username = v) := by
  intro entries
  induction entries with
  | nil => intro acc; simp
  | cons r rest ih =>
    intro acc
    simp only [List.foldl_cons, ih, mem_addWeight_keys]
    constructor
    · rintro ((h | h) | h)
      · exact Or.inl h
      · exact Or.inr ⟨r, List.mem_cons_self _ _, h.symm⟩
      · obtain ⟨q, hq, hqv⟩ := h
        exact Or.inr ⟨q, List.mem_cons_of_mem _ hq, hqv⟩
    · rintro (h | ⟨q, hq, hqv⟩)
      · exact Or.inl (Or.inl h)
      · rcases List.mem_cons.mp hq with h1 | h2
        · subst h1
          exact Or.inl (Or.inr hqv.symm)
        · exact Or.inr ⟨q, h2, hqv⟩

theorem userTotalWeights_pos (l : List CommentRecord) :
    ∀ p ∈ userTotalWeights l, 0 < p.2 :=
  foldl_addWeight_pos (l.filter validEntry) [] (by intro p hp; simp at hp)

theorem userTotalWeights_keys_nodup (l : List CommentRecord) :
    ((userTotalWeights l).map Prod.fst).Nodup :=
  foldl_addWeight_nodup (l.filter validEntry) [] (by simp)

theorem mem_allParticipants (l : List CommentRecord) (v : String) :
    v ∈ allParticipants l ↔ ∃ r ∈ l, validEntry r = true ∧ r.username = v := by
  unfold allParticipants userTotalWeights
  rw [foldl_addWeight_keys v (l.filter validEntry) []]
  simp only [List.map_nil, List.not_mem_nil, false_or, List.mem_filter]
  constructor
  · rintro ⟨r, ⟨hrl, hrv⟩, hv⟩
    exact ⟨r, hrl, hrv, hv⟩
  · rintro ⟨r, hrl, hrv, hv⟩
    exact ⟨r, ⟨hrl, hrv⟩, hv⟩

theorem removeDups_eq_dedupSpecAux {α : Type} [DecidableEq α] :
    ∀ (l seen pre : List α), (∀ y : α, y ∈ seen ↔ y ∈ pre) →
      removeDups seen l = dedupSpecAux pre l := by
  intro l
  induction l with
  | nil => intro seen pre _; rfl
  | cons x xs ih =>
    intro seen pre hsp
    by_cases hx : x ∈ seen
    · rw [removeDups, if_pos hx, dedupSpecAux, if_pos ((hsp x).mp hx)]
      refine ih seen (pre ++ [x]) ?_
      intro y
      rw [hsp y, List.mem_append, List.mem_singleton]
      constructor
      · exact Or.inl
      · rintro (h | h)
        · exact h
        · subst h
          exact (hsp y).mp hx
    · rw [removeDups, if_neg hx, dedupSpecAux, if_neg (fun h => hx ((hsp x).mpr h))]
      refine congrArg (x :: ·) (ih (x :: seen) (pre ++ [x]) ?_)
      intro y
      rw [List.mem_cons, hsp y, List.mem_append, List.mem_singleton]
      tauto

theorem mem_removeDups {α : Type} [DecidableEq α] :
    ∀ (l seen : List α) (x : α), x ∈ removeDups seen l → x ∉ seen := by
  intro l
  induction l with
  | nil => intro seen x h; simp [removeDups] at h
  | cons a xs ih =>
    intro seen x h
    by_cases ha : a ∈ seen
    · rw [removeDups, if_pos ha] at h
      exact ih seen x h
    · rw [removeDups, if_neg ha] at h
      rcases List.mem_cons.mp h with h1 | h2
      · subst h1
        exact ha
      · intro hx
        exact ih (a :: seen) x h2 (List.mem_cons_of_mem a hx)

theorem removeDups_nodup {α : Type} [DecidableEq α] :
    ∀ (l seen : List α), (removeDups seen l).Nodup := by
  intro l
  induction l with
  | nil => intro seen; simp [removeDups]
  | cons a xs ih =>
    intro seen
    by_cases ha : a ∈ seen
    · rw [removeDups, if_pos ha]
      exact ih seen
    · rw [removeDups, if_neg ha]
      refine List.nodup_cons.mpr ⟨?_, ih (a :: seen)⟩
      intro hmem
      exact mem_removeDups xs (a :: seen) a hmem (List.mem_cons_self a seen)

theorem removeDups_of_nodup {α : Type} [DecidableEq α] :
    ∀ (l seen : List α), l.Nodup → (∀ x ∈ l, x ∉ seen) →
      removeDups seen l = l := by
  intro l
  induction l with
  | nil => intro seen _ _; rfl
  | cons a xs ih =>
    intro seen hnd hdisj
    rw [removeDups, if_neg (hdisj a (List.mem_cons_self a xs))]
    refine congrArg (a :: ·) (ih (a :: seen) (List.nodup_cons.mp hnd).2 ?_)
    intro x hx
    rw [List.mem_cons]
    rintro (h | h)
    · exact (List.nodup_cons.mp hnd).1 (h ▸ hx)
    · exact hdisj x (List.mem_cons_of_mem a hx) h

theorem takeWhile_all_append (p : Char → Bool) :
    ∀ (d b : List Char), (∀ c ∈ d, p c = true) →
      (b = [] ∨ ∃ c bs, b = c :: bs ∧ p c = false) →
      (d ++ b).takeWhile p = d := by
  intro d
  induction d with
  | nil =>
    intro b _ hb
    rcases hb with h | ⟨c, bs, hb, hc⟩
    · subst h
      rfl
    · subst hb
      simp [List.takeWhile_cons, hc]
  | cons c cs ih =>
    intro b hd hb
    have hc : p c = true := hd c (List.mem_cons_self _ _)
    simp only [List.cons_append, List.takeWhile_cons, hc, if_true]
    rw [ih b (fun x hx => hd x (List.mem_cons_of_mem _ hx)) hb]

theorem firstDigitRun_append :
    ∀ (a : List Char), ∀ (d b : List Char),
      (∀ c ∈ a, c.isDigit = false) → d ≠ [] → (∀ c ∈ d, c.isDigit = true) →
      (b = [] ∨ ∃ c bs, b = c :: bs ∧ c.isDigit = false) →
      firstDigitRun (a ++ d ++ b) = some d := by
  intro a
  induction a with
  | nil =>
    intro d b _ hd hdd hb
    cases d with
    | nil => exact absurd rfl hd
    | cons c cs =>
      have hc : c.isDigit = true := hdd c (List.mem_cons_self _ _)
      simp only [List.nil_append, List.cons_append, firstDigitRun, hc, if_true,
        List.append_eq]
      rw [takeWhile_all_append Char.isDigit cs b
        (fun x hx => hdd x (List.mem_cons_of_mem _ hx)) hb]
  | cons c cs ih =>
    intro d b ha hd hdd hb
    have hc : c.isDigit = false := ha c (List.mem_cons_self _ _)
    simp only [List.cons_append, firstDigitRun, hc, Bool.false_eq_true, if_false]
    exact ih d b (fun x hx => ha x (List.mem_cons_of_mem _ hx)) hd hdd hb

theorem find?_filter_isin (winners : List String) (u : String) (hu : u ∈ winners) :
    ∀ df : List CommentRecord,
      (df.filter (fun r => decide (r.username ∈ winners))).find?
          (fun r => r.username == u)
        = df.find? (fun r => r.username == u) := by
  intro df
  induction df with
  | nil => rfl
  | cons r rest ih =>
    by_cases hru : r.username = u
    · have hmem : r.username ∈ winners := hru ▸ hu
      rw [List.filter_cons, if_pos (by simpa using hmem)]
      rw [List.find?_cons, List.find?_cons]
      have hbeq : (r.username == u) = true := by simpa using hru
      rw [hbeq]
    · have hbeq : (r.username == u) = false := by simpa using hru
      by_cases hmem : r.username ∈ winners
      · rw [List.filter_cons, if_pos (by simpa using hmem)]
        rw [List.find?_cons, List.find?_cons, hbeq]
        exact ih
      · rw [List.filter_cons, if_neg (by simpa using hmem)]
        rw [List.find?_cons, hbeq]
        exact ih

theorem snd_getD (pool : List (String × Nat)) (i : Nat) (h : i < pool.length) :
    (pool.getD i ("", 0)).2 = (pool.map Prod.snd).getD i 0 := by
  rw [List.getD_eq_getElem _ _ h, List.getD_eq_getElem _ _ (by simpa using h)]
  simp

theorem drawOne_of_total_zero :
    ∀ (pool : List (String × Nat)) (r : Nat), totalW pool = 0 →
      drawOne pool r = none := by
  intro pool
  induction pool with
  | nil => intro r _; rfl
  | cons p rest ih =>
    intro r h
    obtain ⟨u, w⟩ := p
    simp only [totalW, List.map_cons, List.sum_cons] at h
    have hw : w = 0 := by omega
    have hr : totalW rest = 0 := by
      simp only [totalW]
      omega
    subst hw
    simp only [drawOne, Nat.not_lt_zero, if_false]
    rw [ih (r - 0) hr]
    rfl

theorem firstDigitRun_of_no_digit :
    ∀ cs : List Char, (∀ c ∈ cs, c.isDigit = false) → firstDigitRun cs = none := by
  intro cs
  induction cs with
  | nil => intro _; rfl
  | cons c rest ih =>
    intro h
    have hc : c.isDigit = false := h c (List.mem_cons_self _ _)
    simp only [firstDigitRun, hc, Bool.false_eq_true, if_false]
    exact ih (fun x hx => h x (List.mem_cons_of_mem _ hx))

/-- C1: the winner draw performs successive weighted draws without
replacement.  Over any pool state, candidate `i` owns exactly
`total_weight i` of the `totalW pool` equally likely generator residues,
so each draw selects a remaining candidate with probability equal to its
total weight divided by the total weight of the remaining pool; and every
residue selecting candidate `i` removes that candidate from the pool
before the next draw.  In particular, for the population
u1 ↦ 4, u2 ↦ 2 and one requested winner, u1 is selected with
probability 4/6 and u2 with probability 2/6. -/
theorem draw_probability (pool : List (String × Nat)) (i : Nat)
    (hi : i < pool.length) :
    (List.range (totalW pool)).countP
        (fun r => selectIdx (pool.map Prod.snd) r == i)
      = (pool.getD i ("", 0)).2
  ∧ (((List.range (totalW pool)).countP
        (fun r => selectIdx (pool.map Prod.snd) r == i) : ℚ) / (totalW pool)
      = ((pool.getD i ("", 0)).2 : ℚ) / (totalW pool))
  ∧ (∀ r : Nat, r < totalW pool → selectIdx (pool.map Prod.snd) r = i →
      drawOne pool r = some ((pool.getD i ("", 0)).1, pool.eraseIdx i)) := by
  have hcount : (List.range (totalW pool)).countP
      (fun r => selectIdx (pool.map Prod.snd) r == i) = (pool.getD i ("", 0)).2 := by
    have h := countP_range_selectIdx (pool.map Prod.snd) i
    rw [snd_getD pool i hi]
    exact h
  refine ⟨hcount, by rw [hcount], ?_⟩
  intro r hr hsel
  rw [drawOne_eq pool r hr, hsel]

/-- Witness for C1 at the population u1 ↦ 4, u2 ↦ 2: u1 is chosen with
probability 4/6, and the residues selecting u1 remove u1 from the pool. -/
theorem draw_probability_witness :
    0 < ([("u1", 4), ("u2", 2)] : List (String × Nat)).length
  ∧ (((List.range (totalW [("u1", 4), ("u2", 2)])).countP
        (fun r => selectIdx ([("u1", 4), ("u2", 2)].map Prod.snd) r == 0) : ℚ)
        / (totalW [("u1", 4), ("u2", 2)]) = 4 / 6)
  ∧ drawOne [("u1", 4), ("u2", 2)] 0 = some ("u1", [("u2", 2)]) := by
  have h := draw_probability [("u1", 4), ("u2", 2)] 0 (by decide)
  refine ⟨by decide, ?_, ?_⟩
  · rw [h.2.1]
    norm_num [totalW, List.getD]
  · have h3 := h.2.2 0 (by decide) (by decide)
    simpa using h3

/-- C2: every WinnerSet the sampler produces lists distinct usernames,
each winner is a participant of the aggregate with positive total
weight, and the sequence is in draw order: the head is the first draw
and the tail is the remaining draws over the pool with that winner
removed. -/
theorem winner_set_invariants (l : List CommentRecord) (k : Nat) (g : Nat → Nat) :
    (sample (userTotalWeights l) k g).Nodup
  ∧ (∀ u ∈ sample (userTotalWeights l) k g,
      ∃ w, (u, w) ∈ userTotalWeights l ∧ 0 < w)
  ∧ sample (userTotalWeights l) (k + 1) g =
      (match drawOne (userTotalWeights l) (g 0 % totalW (userTotalWeights l)) with
       | none => []
       | some p => p.1 :: sampleAux g k 1 p.2) := by
  refine ⟨sampleAux_nodup g k 0 _ (userTotalWeights_keys_nodup l), ?_, ?_⟩
  · intro u hu
    have hmem := mem_sampleAux g k 0 _ u hu
    obtain ⟨p, hp, hpu⟩ := List.mem_map.mp hmem
    refine ⟨p.2, ?_, userTotalWeights_pos l p hp⟩
    have hpair : (u, p.2) = p := by
      rw [← hpu]
    rw [hpair]
    exact hp
  · by_cases hW : totalW (userTotalWeights l) = 0
    · rw [sample, sampleAux, if_pos hW, drawOne_of_total_zero _ _ hW]
    · rw [sample, sampleAux, if_neg hW]

/-- Witness for C2 at a two-participant input: the drawn winner set is
duplicate-free and the drawn u1 is a positive-weight participant. -/
theorem winner_set_invariants_witness :
    (sample (userTotalWeights [recU1, recU2]) 2 (fun _ => 0)).Nodup
  ∧ (∃ w, ("u1", w) ∈ userTotalWeights [recU1, recU2] ∧ 0 < w) := by
  have h := winner_set_invariants [recU1, recU2] 2 (fun _ => 0)
  refine ⟨h.1, h.2.1 "u1" ?_⟩
  decide

/-- C3: when fewer than the requested 10 participants exist, the draw is
clamped: the warning signal is raised rather than failing, exactly as
many winners as participants are returned, and every participant is
selected. -/
theorem population_clamp (l : List CommentRecord) (g : Nat → Nat)
    (h : (userTotalWeights l).length < numWinnersToPick) :
    (pickGiveawayWinners l g).2 = true
  ∧ (pickGiveawayWinners l g).1.length = (userTotalWeights l).length
  ∧ (∀ u w, (u, w) ∈ userTotalWeights l → u ∈ (pickGiveawayWinners l g).1) := by
  have hperm := sampleAux_perm g (userTotalWeights l).length 0 (userTotalWeights l)
    (userTotalWeights_pos l) le_rfl
  have hpick : pickGiveawayWinners l g =
      (sample (userTotalWeights l) (userTotalWeights l).length g, true) := by
    simp only [pickGiveawayWinners, clampK, if_pos h]
  refine ⟨by rw [hpick], ?_, ?_⟩
  · rw [hpick]
    exact hperm.length_eq.trans (by simp)
  · intro u w hm
    rw [hpick]
    exact hperm.mem_iff.mpr (List.mem_map_of_mem Prod.fst hm)

/-- Witness for C3: two participants, ten requested — both are selected
and the clamp is signalled. -/
theorem population_clamp_witness :
    (userTotalWeights [recU1, recU2]).length < numWinnersToPick
  ∧ (pickGiveawayWinners [recU1, recU2] (fun _ => 0)).2 = true
  ∧ (pickGiveawayWinners [recU1, recU2] (fun _ => 0)).1.length
      = (userTotalWeights [recU1, recU2]).length
  ∧ "u1" ∈ (pickGiveawayWinners [recU1, recU2] (fun _ => 0)).1 := by
  have h : (userTotalWeights [recU1, recU2]).length < numWinnersToPick := by decide
  have hthm := population_clamp [recU1, recU2] (fun _ => 0) h
  exact ⟨h, hthm.1, hthm.2.1, hthm.2.2 "u1" 4 (by decide)⟩

/-- C4 counterexample: a record whose first mention cell is a present but
blank string is accepted by the validity filter, while the claim demands
every accepted record have three non-empty mention strings. -/
theorem blank_mention_accepted :
    validEntry recBlankMention = true ∧ specValid recBlankMention = false := by
  decide

/-- C4 amended: a record is accepted as a valid entry iff all three
mention cells are present (not missing); presence is the only check, so
a present-but-blank mention string is accepted. -/
theorem valid_iff_mentions_present (r : CommentRecord) :
    validEntry r = true ↔
      (r.mentioned_user_1_username ≠ none ∧ r.mentioned_user_2_username ≠ none ∧
        r.mentioned_user_3_username ≠ none) := by
  simp only [validEntry, Bool.and_eq_true, Option.isSome_iff_ne_none]
  tauto

/-- C5: the likes of an entry are the value of the first maximal run of
decimal digits of the engagement cell (0 when the cell is missing or
holds no digit), only the first run counting, and the entry weight —
likes + 1 — is always at least 1. -/
theorem weight_first_digit_run (a d b : List Char)
    (ha : ∀ c ∈ a, c.isDigit = false) (hd : d ≠ [])
    (hdd : ∀ c ∈ d, c.isDigit = true)
    (hb : b = [] ∨ ∃ c bs, b = c :: bs ∧ c.isDigit = false) :
    parsedLikes (some (String.mk (a ++ d ++ b))) = natOfDigits d
  ∧ parsedLikes none = 0
  ∧ (∀ s : String, (∀ c ∈ s.data, c.isDigit = false) → parsedLikes (some s) = 0)
  ∧ (∀ r : CommentRecord, 1 ≤ entryWeight r)
  ∧ (∀ r : CommentRecord, entryWeight r = parsedLikes r.action_type + 1) := by
  refine ⟨?_, rfl, ?_, ?_, fun r => rfl⟩
  · show (match firstDigitRun (String.mk (a ++ d ++ b)).data with
      | none => 0
      | some run => natOfDigits run) = natOfDigits d
    rw [show (String.mk (a ++ d ++ b)).data = a ++ d ++ b from rfl]
    rw [firstDigitRun_append a d b ha hd hdd hb]
  · intro s hs
    show (match firstDigitRun s.data with
      | none => 0
      | some run => natOfDigits run) = 0
    rw [firstDigitRun_of_no_digit s.data hs]
  · intro r
    exact Nat.succ_le_succ (Nat.zero_le _)

/-- Witness for C5: in the cell content 12 and 34 only the first digit
run counts, and the parsed likes are 12. -/
theorem weight_first_digit_run_witness :
    parsedLikes (some "12 and 34") = 12 ∧ parsedLikes none = 0 := by
  have h := weight_first_digit_run [] ['1', '2'] (' ' :: "and 34".data)
    (by decide) (by decide) (by decide)
    (Or.inr ⟨' ', "and 34".data, rfl, by decide⟩)
  refine ⟨?_, h.2.1⟩
  have he : String.mk (([] : List Char) ++ ['1', '2'] ++ (' ' :: "and 34".data))
      = "12 and 34" := by decide
  rw [← he, h.1]
  decide

/-- C6: the normalizer removes a row iff it is exactly equal to an
earlier row; the first occurrence of each distinct row survives, in
input order — the scanning duplicate removal equals the
earlier-records specification. -/
theorem dedup_removes_exact_earlier_duplicates (l : List RawRow) :
    dedupFirst l = dedupSpec l :=
  removeDups_eq_dedupSpecAux l [] [] (fun _ => Iff.rfl)

/-- C7: duplicate removal is idempotent — applied to its own output it
removes nothing further. -/
theorem dedup_idempotent (l : List RawRow) :
    dedupFirst (dedupFirst l) = dedupFirst l :=
  removeDups_of_nodup (dedupFirst l) [] (removeDups_nodup l [])
    (fun x _ hx => (List.not_mem_nil x) hx)

/-- C8 counterexample: a raw input with 15 columns (one more than the
schema) makes the relabeling raise a length mismatch — the pipeline
aborts instead of dropping the excess column and warning. -/
theorem excess_columns_error :
    renameColumns 15 = Except.error "Length mismatch" := by
  rfl

/-- C8 amended: only a raw input with fewer columns than the 14-column
schema is recovered — the label mapping is truncated to the available
columns and a warning is surfaced; an input with more columns fails the
relabeling with a length-mismatch error. -/
theorem fewer_columns_truncate_warn (n : Nat) (h : n < newColumnNames.length) :
    renameColumns n = Except.ok (newColumnNames.take n, true) := by
  unfold renameColumns setColumns
  rw [if_neg (Nat.ne_of_lt h),
    if_pos (by rw [List.length_take]; exact Nat.min_eq_left (Nat.le_of_lt h))]
  rfl

/-- Witness for C8 amended at a 13-column input. -/
theorem fewer_columns_truncate_warn_witness :
    13 < newColumnNames.length
  ∧ renameColumns 13 = Except.ok (newColumnNames.take 13, true) :=
  ⟨by decide, fewer_columns_truncate_warn 13 (by decide)⟩

/-- C9 counterexample: the profile reference reported for u is the one
on u's first record of the full input — an invalid record carrying P1 —
not the one on u's first valid entry, which carries P2. -/
theorem profile_ref_not_from_first_valid_entry :
    winnerProfiles [recFirstNoMentions, recLaterValid] ["u"] "u" = some (some "P1")
  ∧ specProfileRef [recFirstNoMentions, recLaterValid] "u" = some (some "P2") := by
  decide

/-- C9 amended: the profile reference reported for a listed participant
is the one carried by that participant's first record in the full
cleaned input, valid entry or not, and later records never overwrite
it. -/
theorem profile_ref_first_record (df : List CommentRecord) (winners : List String)
    (u : String) (hu : u ∈ winners) :
    winnerProfiles df winners u
      = (df.find? (fun r => r.username == u)).map CommentRecord.profile_url := by
  unfold winnerProfiles
  rw [find?_filter_isin winners u hu df]

/-- Witness for C9 amended. -/
theorem profile_ref_first_record_witness :
    "u" ∈ ["u"]
  ∧ winnerProfiles [recFirstNoMentions, recLaterValid] ["u"] "u"
      = (([recFirstNoMentions, recLaterValid].find?
          (fun r => r.username == "u")).map CommentRecord.profile_url) :=
  ⟨by decide, profile_ref_first_record _ _ "u" (by decide)⟩

/-- C10: the winner and non-winner groups partition the participants
with a valid entry — a participant is in the winner group iff listed and
in the non-winner group iff not listed, and a username is a participant
iff it has a valid entry, so a listed username with no valid entry is in
neither group. -/
theorem winner_groups_partition (l : List CommentRecord) (ws : List String)
    (u : String) :
    (u ∈ validWinners l ws ↔ u ∈ allParticipants l ∧ u ∈ ws)
  ∧ (u ∈ nonWinners l ws ↔ u ∈ allParticipants l ∧ u ∉ ws)
  ∧ (u ∈ allParticipants l ↔ ∃ r ∈ l, validEntry r = true ∧ r.username = u) := by
  refine ⟨?_, ?_, mem_allParticipants l u⟩
  · simp only [validWinners, List.mem_filter, decide_eq_true_eq]
    tauto
  · simp only [nonWinners, List.mem_filter, decide_eq_true_eq]

end Giveaway
